import Mathlib

/-!
Shallow embedding of the Lorenz attractor visualizer (Go sources
`lorenz.go` and the companion chaos-showcase file) and verification of
the specification's claims about it.

Modelling conventions:
* Go `float64` values are modelled as exact rationals (`ℚ`): every claim
  under scrutiny concerns which arithmetic expression the code computes
  and the integer/list bookkeeping around it, not IEEE-754 rounding.
* Go `int` is modelled as `ℤ`.
* The mutable `image.Paletted` buffer is modelled as a structure holding
  its dimensions and a total pixel map `ℤ → ℤ → ℕ`; Go's
  `SetColorIndex` silently ignores out-of-bounds writes, which is
  modelled by `setColorIndex` below.
* Loops are modelled as folds over explicit index lists; the one loop
  whose termination is not structural (Bresenham's `for { ... }`) is
  modelled with explicit fuel `|dx| + |dy| + 1`, and the development
  proves this fuel always suffices.
-/

namespace Lorenz

/-- `Point3D` from `lorenz.go`: a 3D point with `float64` coordinates,
modelled over `ℚ`. -/
structure Point3D where
  x : ℚ
  y : ℚ
  z : ℚ
deriving DecidableEq

instance : Inhabited Point3D := ⟨⟨0, 0, 0⟩⟩

/-- `LorenzSystem` from `lorenz.go`: parameters, step size, current
position, bounded trail and its capacity. -/
structure LorenzSystem where
  sigma : ℚ
  rho : ℚ
  beta : ℚ
  dt : ℚ
  x : ℚ
  y : ℚ
  z : ℚ
  trail : List Point3D
  maxTrailLength : ℤ

/-- `NewLorenzSystem(maxTrail)` from `lorenz.go`: classic parameters
σ = 10, ρ = 28, β = 8/3, dt = 0.01, initial position (1,1,1), empty
trail. -/
def newLorenzSystem (maxTrail : ℤ) : LorenzSystem :=
  { sigma := 10
    rho := 28
    beta := 8 / 3
    dt := 1 / 100
    x := 1
    y := 1
    z := 1
    trail := []
    maxTrailLength := maxTrail }

/-- `(*LorenzSystem).Step` from `lorenz.go`: computes the three Lorenz
derivatives from the pre-step state, advances (x,y,z) by one forward
Euler step, appends the new point to the trail and drops the oldest
entry when the trail exceeds its capacity (`l.trail = l.trail[1:]`),
returning the new point alongside the updated system. -/
def step (l : LorenzSystem) : LorenzSystem × Point3D :=
  let dx := l.sigma * (l.y - l.x)
  let dy := l.x * (l.rho - l.z) - l.y
  let dz := l.x * l.y - l.beta * l.z
  let x' := l.x + dx * l.dt
  let y' := l.y + dy * l.dt
  let z' := l.z + dz * l.dt
  let point : Point3D := ⟨x', y', z'⟩
  let t := l.trail ++ [point]
  let trail' := if (t.length : ℤ) > l.maxTrailLength then t.tail else t
  ({ l with x := x', y := y', z := z', trail := trail' }, point)

/-- `(*LorenzSystem).GetTrail` from `lorenz.go`. -/
def getTrail (l : LorenzSystem) : List Point3D :=
  l.trail

/-- `n` successive calls to `Step`, keeping the final system state. -/
def stepN : ℕ → LorenzSystem → LorenzSystem
  | 0, l => l
  | n + 1, l => (step (stepN n l)).1

/-- The point returned by the `(k+1)`-th call to `Step` starting from
`l₀` (0-indexed: `producedPoint l₀ 0` is the first generated point). -/
def producedPoint (l₀ : LorenzSystem) (k : ℕ) : Point3D :=
  (step (stepN k l₀)).2

/-- The list of the first `n` generated points, in generation order. -/
def genPoints (l₀ : LorenzSystem) (n : ℕ) : List Point3D :=
  (List.range n).map (producedPoint l₀)

/-- `LorenzAttractor` from the companion file: same parameters and
state, but no trail. -/
structure LorenzAttractor where
  sigma : ℚ
  rho : ℚ
  beta : ℚ
  dt : ℚ
  x : ℚ
  y : ℚ
  z : ℚ

/-- `(*LorenzAttractor).NextPoint` from the companion file: the same
forward Euler step, returning the new point alongside the updated
attractor state. -/
def nextPoint (l : LorenzAttractor) : LorenzAttractor × Point3D :=
  let dx := l.sigma * (l.y - l.x)
  let dy := l.x * (l.rho - l.z) - l.y
  let dz := l.x * l.y - l.beta * l.z
  let x' := l.x + dx * l.dt
  let y' := l.y + dy * l.dt
  let z' := l.z + dz * l.dt
  ({ l with x := x', y := y', z := z' }, ⟨x', y', z'⟩)

/-- Go's conversion of a `float64` to `int`: truncation toward zero. -/
def ratTrunc (q : ℚ) : ℤ :=
  if 0 ≤ q then ⌊q⌋ else ⌈q⌉

/-- `Project3DTo2D` from `lorenz.go`: fixed orthographic camera on the
X–Z plane.  The `rotationX`/`rotationY` arguments are accepted but the
body never reads them (the source comment says "No rotation - fixed
camera view").  `0.8` is the literal scale for `centerZ`. -/
def project3DTo2D (p : Point3D) (width height : ℤ)
    (rotationX rotationY : ℚ) : ℤ × ℤ :=
  let scaleX : ℚ := (width : ℚ) / 50
  let scaleZ : ℚ := (height : ℚ) / 60
  let centerX : ℚ := (width : ℚ) / 2
  let centerZ : ℚ := (height : ℚ) * (8 / 10)
  let projX := p.x * scaleX + centerX
  let projZ := centerZ - p.z * scaleZ
  (ratTrunc projX, ratTrunc projZ)

/-- C1: a single integrator step computes the derivatives
dx = σ(y−x), dy = x(ρ−z)−y, dz = xy−βz from the pre-step state, updates
the state to (x+dx·dt, y+dy·dt, z+dz·dt) simultaneously (all three
derivatives read the pre-step state), and returns exactly this new
point — for both `Step` (`LorenzSystem`) and `NextPoint`
(`LorenzAttractor`). -/
theorem step_and_nextPoint_euler :
    (∀ l : LorenzSystem,
      (step l).1.x = l.x + (l.sigma * (l.y - l.x)) * l.dt ∧
      (step l).1.y = l.y + (l.x * (l.rho - l.z) - l.y) * l.dt ∧
      (step l).1.z = l.z + (l.x * l.y - l.beta * l.z) * l.dt ∧
      (step l).2 = ⟨(step l).1.x, (step l).1.y, (step l).1.z⟩) ∧
    (∀ a : LorenzAttractor,
      (nextPoint a).1.x = a.x + (a.sigma * (a.y - a.x)) * a.dt ∧
      (nextPoint a).1.y = a.y + (a.x * (a.rho - a.z) - a.y) * a.dt ∧
      (nextPoint a).1.z = a.z + (a.x * a.y - a.beta * a.z) * a.dt ∧
      (nextPoint a).2 = ⟨(nextPoint a).1.x, (nextPoint a).1.y, (nextPoint a).1.z⟩) :=
  ⟨fun l => ⟨rfl, rfl, rfl, rfl⟩, fun a => ⟨rfl, rfl, rfl, rfl⟩⟩

lemma step_maxTrailLength (l : LorenzSystem) :
    (step l).1.maxTrailLength = l.maxTrailLength := rfl

lemma stepN_maxTrailLength (n : ℕ) (l : LorenzSystem) :
    (stepN n l).maxTrailLength = l.maxTrailLength := by
  induction n with
  | zero => rfl
  | succ n ih => rw [stepN, step_maxTrailLength, ih]

lemma step_trail (l : LorenzSystem) :
    (step l).1.trail =
      if ((l.trail.length + 1 : ℕ) : ℤ) > l.maxTrailLength
      then (l.trail ++ [(step l).2]).tail
      else l.trail ++ [(step l).2] := by
  show (if ((l.trail ++ [(step l).2]).length : ℤ) > l.maxTrailLength then _ else _) = _
  rw [List.length_append]
  rfl

lemma genPoints_succ (l₀ : LorenzSystem) (n : ℕ) :
    genPoints l₀ (n + 1) = genPoints l₀ n ++ [producedPoint l₀ n] := by
  unfold genPoints
  rw [List.range_succ, List.map_append, List.map_singleton]

lemma length_genPoints (l₀ : LorenzSystem) (n : ℕ) :
    (genPoints l₀ n).length = n := by
  unfold genPoints
  rw [List.length_map, List.length_range]

/-- The central trail invariant: starting from an empty trail with
nonnegative capacity, after `n` steps the trail is exactly the most
recent `min n N` generated points, in generation order. -/
lemma trail_stepN (l₀ : LorenzSystem) (h0 : l₀.trail = [])
    (hN : 0 ≤ l₀.maxTrailLength) (n : ℕ) :
    (stepN n l₀).trail =
      (genPoints l₀ n).drop (n - min n l₀.maxTrailLength.toNat) := by
  set N := l₀.maxTrailLength.toNat with hNdef
  induction n with
  | zero =>
    simpa [stepN, genPoints] using h0
  | succ n ih =>
    have hdrop : n - min n N ≤ (genPoints l₀ n).length := by
      rw [length_genPoints]; omega
    have hlen : (stepN n l₀).trail.length = min n N := by
      rw [ih, List.length_drop, length_genPoints]; omega
    have hmax : (stepN n l₀).maxTrailLength = (N : ℤ) := by
      rw [stepN_maxTrailLength, hNdef, Int.toNat_of_nonneg hN]
    have happ : (stepN n l₀).trail ++ [(step (stepN n l₀)).2] =
        (genPoints l₀ (n + 1)).drop (n - min n N) := by
      rw [genPoints_succ, List.drop_append_of_le_length hdrop, ih]
      rfl
    rw [stepN, step_trail, hlen, hmax, happ]
    by_cases hc : ((min n N + 1 : ℕ) : ℤ) > (N : ℤ)
    · rw [if_pos hc, List.tail_drop]
      have : n - min n N + 1 = n + 1 - min (n + 1) N := by
        have : (N : ℤ) < ((min n N + 1 : ℕ) : ℤ) := hc
        have hNle : N ≤ min n N := by exact_mod_cast by omega
        omega
      rw [this]
    · rw [if_neg hc]
      have hlt : ¬ ((N : ℤ) < ((min n N + 1 : ℕ) : ℤ)) := hc
      have hle : min n N + 1 ≤ N := by exact_mod_cast by omega
      have h1 : n - min n N = 0 := by omega
      have h2 : n + 1 - min (n + 1) N = 0 := by omega
      rw [h1, h2]

/-- C2: after `n` steps on a fresh system with capacity `N ≥ 0`, the
trail length is exactly `min n N`; in particular it never exceeds the
capacity. -/
theorem trail_length_eq_min (N : ℤ) (n : ℕ) (hN : 0 ≤ N) :
    (((stepN n (newLorenzSystem N)).trail.length : ℤ) = min (n : ℤ) N) ∧
    ((stepN n (newLorenzSystem N)).trail.length : ℤ) ≤ N := by
  have h0 : (newLorenzSystem N).trail = [] := rfl
  have hN' : 0 ≤ (newLorenzSystem N).maxTrailLength := hN
  have h := trail_stepN (newLorenzSystem N) h0 hN' n
  have hM : (newLorenzSystem N).maxTrailLength = N := rfl
  rw [hM] at h
  have hlen : (stepN n (newLorenzSystem N)).trail.length =
      min n N.toNat := by
    rw [h, List.length_drop, length_genPoints]
    omega
  constructor
  · rw [hlen]
    push_cast
    omega
  · rw [hlen]
    push_cast
    omega

/-- Witness for C2 at capacity 2 after 5 steps. -/
theorem trail_length_eq_min_witness :
    (((stepN 5 (newLorenzSystem 2)).trail.length : ℤ) = min ((5 : ℕ) : ℤ) 2) ∧
    ((stepN 5 (newLorenzSystem 2)).trail.length : ℤ) ≤ 2 :=
  trail_length_eq_min 2 5 (by decide)

/-- C3: FIFO eviction.  For capacity `N ≥ 1` and `n > N` steps, the
trail is exactly the last `N` generated points in generation order, and
its oldest (head) entry is the `(n−N+1)`-th generated point, i.e. the
one of 0-based index `n − N`. -/
theorem trail_fifo (N : ℤ) (n : ℕ) (h1 : 1 ≤ N) (h2 : N < (n : ℤ)) :
    ((stepN n (newLorenzSystem N)).trail =
      (genPoints (newLorenzSystem N) n).drop (n - N.toNat)) ∧
    (stepN n (newLorenzSystem N)).trail.head? =
      some (producedPoint (newLorenzSystem N) (n - N.toNat)) := by
  have h0 : (newLorenzSystem N).trail = [] := rfl
  have hN' : 0 ≤ (newLorenzSystem N).maxTrailLength := by
    show (0 : ℤ) ≤ N; omega
  have h := trail_stepN (newLorenzSystem N) h0 hN' n
  have hmin : min n ((newLorenzSystem N).maxTrailLength).toNat = N.toNat := by
    show min n N.toNat = N.toNat
    omega
  rw [hmin] at h
  refine ⟨h, ?_⟩
  rw [h, List.head?_drop]
  unfold genPoints
  have hidx : n - N.toNat < n := by omega
  rw [List.getElem?_map, List.getElem?_range hidx]
  rfl

/-- Witness for C3 at capacity 2 after 4 steps. -/
theorem trail_fifo_witness :
    ((stepN 4 (newLorenzSystem 2)).trail =
      (genPoints (newLorenzSystem 2) 4).drop (4 - (2 : ℤ).toNat)) ∧
    (stepN 4 (newLorenzSystem 2)).trail.head? =
      some (producedPoint (newLorenzSystem 2) (4 - (2 : ℤ).toNat)) :=
  trail_fifo 2 4 (by decide) (by decide)

/-- C10: the point returned by `Step` is the updated internal position,
and — when the capacity is at least 1 — it is also the newest (last)
entry of the trail returned by `GetTrail`. -/
theorem step_returned_point_agrees (l : LorenzSystem)
    (h : 1 ≤ l.maxTrailLength) :
    ((step l).2 = ⟨(step l).1.x, (step l).1.y, (step l).1.z⟩) ∧
    (getTrail (step l).1).getLast? = some ((step l).2) := by
  refine ⟨rfl, ?_⟩
  show ((step l).1.trail).getLast? = some ((step l).2)
  rw [step_trail]
  by_cases hc : ((l.trail.length + 1 : ℕ) : ℤ) > l.maxTrailLength
  · rw [if_pos hc]
    have hne : l.trail ≠ [] := by
      intro hnil
      rw [hnil] at hc
      simp at hc
      omega
    obtain ⟨a, t, hat⟩ := List.exists_cons_of_ne_nil hne
    rw [hat]
    show (t ++ [(step l).2]).getLast? = some ((step l).2)
    exact List.getLast?_concat t
  · rw [if_neg hc]
    exact List.getLast?_concat l.trail

/-- Witness for C10 on a fresh system of capacity 1. -/
theorem step_returned_point_agrees_witness :
    ((step (newLorenzSystem 1)).2 =
      ⟨(step (newLorenzSystem 1)).1.x, (step (newLorenzSystem 1)).1.y,
        (step (newLorenzSystem 1)).1.z⟩) ∧
    (getTrail (step (newLorenzSystem 1)).1).getLast? =
      some ((step (newLorenzSystem 1)).2) :=
  step_returned_point_agrees (newLorenzSystem 1) (by decide)

/-- C4: `Project3DTo2D` depends only on the point and the buffer
dimensions: identical `(p, width, height)` give identical output for
every choice of the rotation arguments, which have no effect. -/
theorem project3DTo2D_rotation_independent
    (p : Point3D) (width height : ℤ) (rX rY rX' rY' : ℚ) :
    project3DTo2D p width height rX rY = project3DTo2D p width height rX' rY' :=
  rfl

/-- The indexed-color raster buffer, modelling Go's `image.Paletted`:
dimensions plus a total map from coordinates to color indices. -/
structure Paletted where
  width : ℤ
  height : ℤ
  pix : ℤ → ℤ → ℕ

/-- The in-bounds predicate `0 ≤ x < width ∧ 0 ≤ y < height` used by
every pixel write in the source (both by the explicit guards in
`drawLine`/`drawCircle`/`drawChar` and inside Go's
`(*image.Paletted).SetColorIndex`, which ignores out-of-range points). -/
def inBounds (img : Paletted) (x y : ℤ) : Prop :=
  0 ≤ x ∧ x < img.width ∧ 0 ≤ y ∧ y < img.height

instance (img : Paletted) (x y : ℤ) : Decidable (inBounds img x y) := by
  unfold inBounds
  infer_instance

/-- `SetColorIndex`: writes the color index at `(x, y)` when in bounds
and is a no-op otherwise (the guard present both in the drawing helpers
and inside the image library). -/
def setColorIndex (img : Paletted) (x y : ℤ) (c : ℕ) : Paletted :=
  if inBounds img x y then
    { img with pix := fun a b => if a = x ∧ b = y then c else img.pix a b }
  else img

/-- The unbounded `for { ... }` loop of `drawLine`, with explicit fuel.
Each iteration plots the current point, breaks once `(x, y) = (x2, y2)`,
and otherwise advances `x`/`y`/`err` exactly as the source does
(`e2 := 2*err; if e2 > -dy { err -= dy; x += sx }; if e2 < dx
{ err += dx; y += sy }`).  It returns the list of plotted points in
order, or `none` if the fuel runs out — shown below never to happen for
the fuel `drawLinePoints` supplies. -/
def bresLoop (dx dy sx sy x2 y2 : ℤ) :
    ℕ → ℤ → ℤ → ℤ → Option (List (ℤ × ℤ))
  | 0, _, _, _ => none
  | fuel + 1, err, x, y =>
    if x = x2 ∧ y = y2 then some [(x, y)]
    else
      let e2 := 2 * err
      let err' := err - (if e2 > -dy then dy else 0) + (if e2 < dx then dx else 0)
      let x' := x + (if e2 > -dy then sx else 0)
      let y' := y + (if e2 < dx then sy else 0)
      (bresLoop dx dy sx sy x2 y2 fuel err' x' y').map (fun l => (x, y) :: l)

lemma bresLoop_succ (dx dy sx sy x2 y2 : ℤ) (fuel : ℕ) (err x y : ℤ) :
    bresLoop dx dy sx sy x2 y2 (fuel + 1) err x y =
      if x = x2 ∧ y = y2 then some [(x, y)]
      else
        (bresLoop dx dy sx sy x2 y2 fuel
          (err - (if 2 * err > -dy then dy else 0) + (if 2 * err < dx then dx else 0))
          (x + (if 2 * err > -dy then sx else 0))
          (y + (if 2 * err < dx then sy else 0))).map (fun l => (x, y) :: l) := rfl

/-- The setup of `drawLine` (`dx := abs(x2-x1)`, `dy := abs(y2-y1)`,
the step signs, `err := dx - dy`) followed by its loop; returns the
points the loop plots. -/
def drawLinePoints (x1 y1 x2 y2 : ℤ) : Option (List (ℤ × ℤ)) :=
  let dx := |x2 - x1|
  let dy := |y2 - y1|
  let sx : ℤ := if x1 < x2 then 1 else -1
  let sy : ℤ := if y1 < y2 then 1 else -1
  bresLoop dx dy sx sy x2 y2 (dx + dy + 1).toNat (dx - dy) x1 y1

/-- `drawLine` from `lorenz.go`: plots every point the Bresenham loop
visits (each write clipped to the buffer bounds). -/
def drawLine (img : Paletted) (x1 y1 x2 y2 : ℤ) (c : ℕ) : Paletted :=
  match drawLinePoints x1 y1 x2 y2 with
  | some pts => pts.foldl (fun b p => setColorIndex b p.1 p.2 c) img
  | none => img

/-- The in-bounds pixel writes `drawLine` performs, in order. -/
def drawLineWrites (img : Paletted) (x1 y1 x2 y2 : ℤ) : List (ℤ × ℤ) :=
  ((drawLinePoints x1 y1 x2 y2).getD []).filter
    (fun p => decide (inBounds img p.1 p.2))

/-- The inclusive integer range `[a, a+1, ..., b]` of a Go
`for v := a; v <= b; v++` loop. -/
def intRange (a b : ℤ) : List ℤ :=
  (List.range (b + 1 - a).toNat).map (fun i => a + (i : ℤ))

/-- `drawCircle` from `lorenz.go`: for every offset `(x, y)` in the
square `[-radius, radius]²` with `x² + y² ≤ radius²`, write the pixel
`(centerX + x, centerY + y)`, clipped to the buffer bounds. -/
def drawCircle (img : Paletted) (centerX centerY radius : ℤ) (c : ℕ) : Paletted :=
  (intRange (-radius) radius).foldl (fun acc y =>
    (intRange (-radius) radius).foldl (fun acc2 x =>
      if x * x + y * y ≤ radius * radius then
        setColorIndex acc2 (centerX + x) (centerY + y) c
      else acc2) acc) img

lemma sign_mul_cancel {s u : ℤ} (hss : s * s = 1) (h : s * u = 0) : u = 0 := by
  have h1 : s * (s * u) = 0 := by rw [h, mul_zero]
  rw [← mul_assoc, hss, one_mul] at h1
  exact h1

/-- One iteration of the Bresenham loop preserves the error invariant
`err = dx − dy + rx·dy − ry·dx` (where `rx`, `ry` are the remaining
signed distances to the endpoint), keeps `0 ≤ rx ≤ dx`, `0 ≤ ry ≤ dy`,
and strictly decreases `rx + ry`. -/
lemma bres_inv_step (dx dy sx sy x2 y2 : ℤ)
    (hss : sx * sx = 1) (hss' : sy * sy = 1)
    (hdx : 0 ≤ dx) (hdy : 0 ≤ dy) (err x y : ℤ)
    (hrx0 : 0 ≤ sx * (x2 - x)) (hrxd : sx * (x2 - x) ≤ dx)
    (hry0 : 0 ≤ sy * (y2 - y)) (hryd : sy * (y2 - y) ≤ dy)
    (herr : err = dx - dy + (sx * (x2 - x)) * dy - (sy * (y2 - y)) * dx)
    (hend : ¬ (x = x2 ∧ y = y2)) :
    0 ≤ sx * (x2 - (x + (if 2 * err > -dy then sx else 0))) ∧
    sx * (x2 - (x + (if 2 * err > -dy then sx else 0))) ≤ dx ∧
    0 ≤ sy * (y2 - (y + (if 2 * err < dx then sy else 0))) ∧
    sy * (y2 - (y + (if 2 * err < dx then sy else 0))) ≤ dy ∧
    (err - (if 2 * err > -dy then dy else 0) + (if 2 * err < dx then dx else 0)) =
      dx - dy + (sx * (x2 - (x + (if 2 * err > -dy then sx else 0)))) * dy -
        (sy * (y2 - (y + (if 2 * err < dx then sy else 0)))) * dx ∧
    sx * (x2 - (x + (if 2 * err > -dy then sx else 0))) +
        sy * (y2 - (y + (if 2 * err < dx then sy else 0))) <
      sx * (x2 - x) + sy * (y2 - y) := by
  have hxeq : sx * (x2 - x) = 0 → x = x2 := by
    intro h
    have := sign_mul_cancel hss h
    omega
  have hyeq : sy * (y2 - y) = 0 → y = y2 := by
    intro h
    have := sign_mul_cancel hss' h
    omega
  have hnotboth : ¬ (sx * (x2 - x) = 0 ∧ sy * (y2 - y) = 0) := by
    rintro ⟨h1, h2⟩
    exact hend ⟨hxeq h1, hyeq h2⟩
  have hshiftx : sx * (x2 - (x + sx)) = sx * (x2 - x) - 1 := by
    have : sx * (x2 - (x + sx)) = sx * (x2 - x) - sx * sx := by ring
    rw [this, hss]
  have hshifty : sy * (y2 - (y + sy)) = sy * (y2 - y) - 1 := by
    have : sy * (y2 - (y + sy)) = sy * (y2 - y) - sy * sy := by ring
    rw [this, hss']
  -- if x has arrived but y has not, the x-advance guard is false
  have hnoA : sx * (x2 - x) = 0 → 1 ≤ sy * (y2 - y) → ¬ (2 * err > -dy) := by
    intro h0 h1 hA
    rw [h0] at herr
    have hd : dx ≤ sy * (y2 - y) * dx := le_mul_of_one_le_left hdx h1
    rw [herr] at hA
    omega
  -- if y has arrived but x has not, the y-advance guard is false
  have hnoB : sy * (y2 - y) = 0 → 1 ≤ sx * (x2 - x) → ¬ (2 * err < dx) := by
    intro h0 h1 hB
    rw [h0] at herr
    have hd : dy ≤ sx * (x2 - x) * dy := le_mul_of_one_le_left hdy h1
    rw [herr] at hB
    omega
  by_cases hA : 2 * err > -dy <;> by_cases hB : 2 * err < dx
  · -- both guards fire
    have hrx1 : 1 ≤ sx * (x2 - x) := by
      rcases lt_or_eq_of_le hrx0 with h | h
      · omega
      · exact absurd hA (hnoA h.symm (by
          rcases lt_or_eq_of_le hry0 with h' | h'
          · omega
          · exact absurd ⟨h.symm, h'.symm⟩ hnotboth))
    have hry1 : 1 ≤ sy * (y2 - y) := by
      rcases lt_or_eq_of_le hry0 with h | h
      · omega
      · exact absurd hB (hnoB h.symm hrx1)
    simp only [if_pos hA, if_pos hB]
    rw [hshiftx, hshifty]
    refine ⟨by omega, by omega, by omega, by omega, by linear_combination herr, by omega⟩
  · -- only the x guard fires
    have hrx1 : 1 ≤ sx * (x2 - x) := by
      rcases lt_or_eq_of_le hrx0 with h | h
      · omega
      · exact absurd hA (hnoA h.symm (by
          rcases lt_or_eq_of_le hry0 with h' | h'
          · omega
          · exact absurd ⟨h.symm, h'.symm⟩ hnotboth))
    simp only [if_pos hA, if_neg hB, add_zero]
    rw [hshiftx]
    refine ⟨by omega, by omega, hry0, hryd, by linear_combination herr, by omega⟩
  · -- only the y guard fires
    have hry1 : 1 ≤ sy * (y2 - y) := by
      rcases lt_or_eq_of_le hry0 with h | h
      · omega
      · exact absurd hB (hnoB h.symm (by
          rcases lt_or_eq_of_le hrx0 with h' | h'
          · omega
          · exact absurd ⟨h'.symm, h.symm⟩ hnotboth))
    simp only [if_neg hA, if_pos hB, add_zero]
    rw [hshifty]
    refine ⟨hrx0, hrxd, by omega, by omega, by linear_combination herr, by omega⟩
  · -- neither guard fires: impossible before reaching the endpoint
    exfalso
    have h1 : dx ≤ 2 * err := by omega
    have h2 : 2 * err ≤ -dy := by omega
    have hdx0 : dx = 0 := by omega
    have hdy0 : dy = 0 := by omega
    exact hnotboth ⟨by omega, by omega⟩

/-- Given the invariant, the fueled Bresenham loop completes whenever
the fuel exceeds the remaining distance `rx + ry`, visiting a nonempty
path that starts at the current point and ends at the endpoint. -/
lemma bresLoop_terminates (dx dy sx sy x2 y2 : ℤ)
    (hss : sx * sx = 1) (hss' : sy * sy = 1)
    (hdx : 0 ≤ dx) (hdy : 0 ≤ dy) :
    ∀ (fuel : ℕ) (err x y : ℤ),
      0 ≤ sx * (x2 - x) → sx * (x2 - x) ≤ dx →
      0 ≤ sy * (y2 - y) → sy * (y2 - y) ≤ dy →
      err = dx - dy + (sx * (x2 - x)) * dy - (sy * (y2 - y)) * dx →
      (sx * (x2 - x) + sy * (y2 - y)).toNat < fuel →
      ∃ l, bresLoop dx dy sx sy x2 y2 fuel err x y = some l ∧
        l.head? = some (x, y) ∧ l.getLast? = some (x2, y2) := by
  intro fuel
  induction fuel with
  | zero =>
    intro err x y _ _ _ _ _ hf
    omega
  | succ fuel ih =>
    intro err x y hrx0 hrxd hry0 hryd herr hf
    by_cases hend : x = x2 ∧ y = y2
    · refine ⟨[(x, y)], ?_, rfl, ?_⟩
      · rw [bresLoop_succ, if_pos hend]
      · rw [hend.1, hend.2]
        rfl
    · obtain ⟨h1, h2, h3, h4, h5, h6⟩ :=
        bres_inv_step dx dy sx sy x2 y2 hss hss' hdx hdy err x y
          hrx0 hrxd hry0 hryd herr hend
      obtain ⟨l', hl', hh', hlast'⟩ :=
        ih (err - (if 2 * err > -dy then dy else 0) + (if 2 * err < dx then dx else 0))
          (x + (if 2 * err > -dy then sx else 0))
          (y + (if 2 * err < dx then sy else 0))
          h1 h2 h3 h4 h5 (by omega)
      refine ⟨(x, y) :: l', ?_, rfl, ?_⟩
      · rw [bresLoop_succ, if_neg hend, hl']
        rfl
      · match l', hh' with
        | a :: t, _ =>
          rw [List.getLast?_cons_cons]
          exact hlast'

/-- C9: `drawLine`'s drawing loop terminates for every pair of integer
endpoints: with the fuel `|dx| + |dy| + 1` it completes in one pass,
plotting a path that starts at the first endpoint and ends at the
second. -/
theorem drawLinePoints_terminates (x1 y1 x2 y2 : ℤ) :
    ∃ l, drawLinePoints x1 y1 x2 y2 = some l ∧
      l.head? = some (x1, y1) ∧ l.getLast? = some (x2, y2) ∧
      ∀ (img : Paletted) (c : ℕ),
        drawLine img x1 y1 x2 y2 c =
          l.foldl (fun b p => setColorIndex b p.1 p.2 c) img := by
  have hdx : (0 : ℤ) ≤ |x2 - x1| := abs_nonneg _
  have hdy : (0 : ℤ) ≤ |y2 - y1| := abs_nonneg _
  have hsx : (if x1 < x2 then (1 : ℤ) else -1) * (if x1 < x2 then (1 : ℤ) else -1) = 1 := by
    by_cases h : x1 < x2 <;> simp [h]
  have hsy : (if y1 < y2 then (1 : ℤ) else -1) * (if y1 < y2 then (1 : ℤ) else -1) = 1 := by
    by_cases h : y1 < y2 <;> simp [h]
  have hrx : (if x1 < x2 then (1 : ℤ) else -1) * (x2 - x1) = |x2 - x1| := by
    by_cases h : x1 < x2
    · rw [if_pos h, one_mul, abs_of_pos (by omega)]
    · rw [if_neg h, abs_of_nonpos (by omega)]
      ring
  have hry : (if y1 < y2 then (1 : ℤ) else -1) * (y2 - y1) = |y2 - y1| := by
    by_cases h : y1 < y2
    · rw [if_pos h, one_mul, abs_of_pos (by omega)]
    · rw [if_neg h, abs_of_nonpos (by omega)]
      ring
  have h := bresLoop_terminates |x2 - x1| |y2 - y1|
    (if x1 < x2 then (1 : ℤ) else -1) (if y1 < y2 then (1 : ℤ) else -1) x2 y2
    hsx hsy hdx hdy (( |x2 - x1| + |y2 - y1| + 1).toNat) (|x2 - x1| - |y2 - y1|) x1 y1
    (by rw [hrx]; exact hdx) (by rw [hrx]) (by rw [hry]; exact hdy) (by rw [hry])
    (by rw [hrx, hry]; ring) (by rw [hrx, hry]; omega)
  obtain ⟨l, hl, hh, hlast⟩ := h
  refine ⟨l, hl, hh, hlast, ?_⟩
  intro img c
  unfold drawLine
  rw [show drawLinePoints x1 y1 x2 y2 = some l from hl]

/-- `setColorIndex` never changes the buffer dimensions. -/
lemma setColorIndex_dims (img : Paletted) (x y : ℤ) (c : ℕ) :
    (setColorIndex img x y c).width = img.width ∧
    (setColorIndex img x y c).height = img.height := by
  unfold setColorIndex
  by_cases h : inBounds img x y
  · rw [if_pos h]
    exact ⟨rfl, rfl⟩
  · rw [if_neg h]
    exact ⟨rfl, rfl⟩

lemma inBounds_of_dims_eq {img img' : Paletted} (hw : img'.width = img.width)
    (hh : img'.height = img.height) (x y : ℤ) :
    inBounds img' x y ↔ inBounds img x y := by
  unfold inBounds
  rw [hw, hh]

/-- An out-of-bounds query is unaffected by any `setColorIndex`. -/
lemma setColorIndex_pix_of_not_inBounds (img : Paletted) (a b x y : ℤ) (c : ℕ)
    (h : ¬ inBounds img x y) :
    (setColorIndex img a b c).pix x y = img.pix x y := by
  unfold setColorIndex
  by_cases hb : inBounds img a b
  · rw [if_pos hb]
    show (if x = a ∧ y = b then c else img.pix x y) = img.pix x y
    have hne : ¬ (x = a ∧ y = b) := by
      rintro ⟨rfl, rfl⟩
      exact h hb
    rw [if_neg hne]
  · rw [if_neg hb]

/-- A fold of dimension-preserving, clipping writes leaves dimensions
and every out-of-bounds pixel unchanged. -/
lemma foldl_pix_preserved {α : Type} (f : Paletted → α → Paletted)
    (hf : ∀ img a, (f img a).width = img.width ∧ (f img a).height = img.height ∧
      ∀ x y, ¬ inBounds img x y → (f img a).pix x y = img.pix x y) :
    ∀ (l : List α) (img : Paletted),
      (l.foldl f img).width = img.width ∧ (l.foldl f img).height = img.height ∧
      ∀ x y, ¬ inBounds img x y → (l.foldl f img).pix x y = img.pix x y := by
  intro l
  induction l with
  | nil => exact fun img => ⟨rfl, rfl, fun x y _ => rfl⟩
  | cons a t ih =>
    intro img
    obtain ⟨hw, hh, hp⟩ := hf img a
    obtain ⟨hw', hh', hp'⟩ := ih (f img a)
    refine ⟨by rw [List.foldl_cons, hw', hw], by rw [List.foldl_cons, hh', hh], ?_⟩
    intro x y hxy
    rw [List.foldl_cons, hp' x y (by rw [inBounds_of_dims_eq hw hh]; exact hxy), hp x y hxy]

lemma drawLine_pix_of_not_inBounds (img : Paletted) (x1 y1 x2 y2 : ℤ) (c : ℕ)
    (x y : ℤ) (h : ¬ inBounds img x y) :
    (drawLine img x1 y1 x2 y2 c).pix x y = img.pix x y := by
  unfold drawLine
  cases hpts : drawLinePoints x1 y1 x2 y2 with
  | none => rfl
  | some pts =>
    exact (foldl_pix_preserved (fun b p => setColorIndex b p.1 p.2 c)
      (fun im p => ⟨(setColorIndex_dims im p.1 p.2 c).1, (setColorIndex_dims im p.1 p.2 c).2,
        fun u v huv => setColorIndex_pix_of_not_inBounds im p.1 p.2 u v c huv⟩)
      pts img).2.2 x y h

lemma drawCircle_pix_of_not_inBounds (img : Paletted) (cx cy r : ℤ) (c : ℕ)
    (x y : ℤ) (h : ¬ inBounds img x y) :
    (drawCircle img cx cy r c).pix x y = img.pix x y := by
  unfold drawCircle
  have hinner : ∀ (im : Paletted) (yo : ℤ),
      ((intRange (-r) r).foldl (fun acc2 xo =>
        if xo * xo + yo * yo ≤ r * r then
          setColorIndex acc2 (cx + xo) (cy + yo) c
        else acc2) im).width = im.width ∧
      ((intRange (-r) r).foldl (fun acc2 xo =>
        if xo * xo + yo * yo ≤ r * r then
          setColorIndex acc2 (cx + xo) (cy + yo) c
        else acc2) im).height = im.height ∧
      ∀ u v, ¬ inBounds im u v →
        ((intRange (-r) r).foldl (fun acc2 xo =>
          if xo * xo + yo * yo ≤ r * r then
            setColorIndex acc2 (cx + xo) (cy + yo) c
          else acc2) im).pix u v = im.pix u v := by
    intro im yo
    refine foldl_pix_preserved _ ?_ (intRange (-r) r) im
    intro im2 xo
    by_cases hc : xo * xo + yo * yo ≤ r * r
    · simp only [if_pos hc]
      exact ⟨(setColorIndex_dims im2 (cx + xo) (cy + yo) c).1,
        (setColorIndex_dims im2 (cx + xo) (cy + yo) c).2,
        fun u v huv => setColorIndex_pix_of_not_inBounds im2 (cx + xo) (cy + yo) u v c huv⟩
    · rw [if_neg hc]
      exact ⟨rfl, rfl, fun u v _ => rfl⟩
  exact (foldl_pix_preserved _
    (fun im yo => hinner im yo) (intRange (-r) r) img).2.2 x y h

/-- C6: all pixel writes of `drawLine` and `drawCircle` are clipped to
`0 ≤ x < width`, `0 ≤ y < height`: any out-of-bounds coordinate is left
untouched, for every line and every circle (in particular circles whose
center lies outside the buffer), and both functions are total. -/
theorem draw_clipped (img : Paletted) (x1 y1 x2 y2 cx cy r : ℤ) (c : ℕ)
    (x y : ℤ) (h : ¬ inBounds img x y) :
    (drawLine img x1 y1 x2 y2 c).pix x y = img.pix x y ∧
    (drawCircle img cx cy r c).pix x y = img.pix x y :=
  ⟨drawLine_pix_of_not_inBounds img x1 y1 x2 y2 c x y h,
   drawCircle_pix_of_not_inBounds img cx cy r c x y h⟩

/-- Witness for C6: a 4×4 buffer, a circle of radius 3 centered outside
the buffer at (-2, 1) overlapping it, and the out-of-bounds query
(-1, 1) is untouched. -/
theorem draw_clipped_witness :
    (drawLine ⟨4, 4, fun _ _ => 0⟩ (-3) 0 2 0 7).pix (-1) 1 =
      (⟨4, 4, fun _ _ => 0⟩ : Paletted).pix (-1) 1 ∧
    (drawCircle ⟨4, 4, fun _ _ => 0⟩ (-2) 1 3 7).pix (-1) 1 =
      (⟨4, 4, fun _ _ => 0⟩ : Paletted).pix (-1) 1 :=
  draw_clipped ⟨4, 4, fun _ _ => 0⟩ (-3) 0 2 0 (-2) 1 3 7 (-1) 1
    (by unfold inBounds; decide)

/-- Folding clipped single-color writes: a pixel holds the new color
exactly when it is one of the written points and lies in bounds. -/
lemma foldl_setColorIndex_pix (c : ℕ) :
    ∀ (l : List (ℤ × ℤ)) (img : Paletted) (x y : ℤ),
      (l.foldl (fun b p => setColorIndex b p.1 p.2 c) img).pix x y =
        if (x, y) ∈ l ∧ inBounds img x y then c else img.pix x y := by
  intro l
  induction l with
  | nil =>
    intro img x y
    simp
  | cons p t ih =>
    intro img x y
    rw [List.foldl_cons, ih (setColorIndex img p.1 p.2 c) x y]
    have hdims := setColorIndex_dims img p.1 p.2 c
    have hib : inBounds (setColorIndex img p.1 p.2 c) x y ↔ inBounds img x y :=
      inBounds_of_dims_eq hdims.1 hdims.2 x y
    by_cases h1 : (x, y) ∈ t ∧ inBounds img x y
    · rw [if_pos ⟨h1.1, hib.mpr h1.2⟩, if_pos ⟨List.mem_cons_of_mem p h1.1, h1.2⟩]
    · rw [if_neg (fun hcon => h1 ⟨hcon.1, hib.mp hcon.2⟩)]
      by_cases hin : inBounds img x y
      · by_cases hp : (x, y) = p
        · obtain rfl : p = (x, y) := hp.symm
          rw [if_pos ⟨List.mem_cons_self _ _, hin⟩]
          unfold setColorIndex
          rw [if_pos hin]
          show (if x = x ∧ y = y then c else img.pix x y) = c
          rw [if_pos ⟨rfl, rfl⟩]
        · have hmem : ¬ (x, y) ∈ p :: t := by
            intro hm
            rcases List.mem_cons.mp hm with h | h
            · exact hp h
            · exact h1 ⟨h, hin⟩
          rw [if_neg (fun hcon => hmem hcon.1)]
          unfold setColorIndex
          by_cases hbp : inBounds img p.1 p.2
          · rw [if_pos hbp]
            show (if x = p.1 ∧ y = p.2 then c else img.pix x y) = img.pix x y
            rw [if_neg (fun hc2 => hp (Prod.ext_iff.mpr ⟨hc2.1, hc2.2⟩))]
          · rw [if_neg hbp]
      · rw [if_neg (fun hcon => hin hcon.2)]
        exact setColorIndex_pix_of_not_inBounds img p.1 p.2 x y c hin

lemma drawLinePoints_0_0_5_0 :
    drawLinePoints 0 0 5 0 =
      some [(0, 0), (1, 0), (2, 0), (3, 0), (4, 0), (5, 0)] := by
  decide

/-- C5: on a buffer of width ≥ 6 and height ≥ 1, the line from (0,0)
to (5,0) writes exactly the six pixels (0,0) … (5,0), each exactly once
(the ordered write list is exactly that sequence), and every other
pixel keeps its previous color. -/
theorem drawLine_horizontal_exact (img : Paletted) (c : ℕ)
    (hw : 6 ≤ img.width) (hh : 1 ≤ img.height) :
    drawLineWrites img 0 0 5 0 =
      [(0, 0), (1, 0), (2, 0), (3, 0), (4, 0), (5, 0)] ∧
    ∀ x y : ℤ, (drawLine img 0 0 5 0 c).pix x y =
      if (x, y) ∈ ([(0, 0), (1, 0), (2, 0), (3, 0), (4, 0), (5, 0)] : List (ℤ × ℤ))
      then c else img.pix x y := by
  have hmem : ∀ p ∈ ([(0, 0), (1, 0), (2, 0), (3, 0), (4, 0), (5, 0)] : List (ℤ × ℤ)),
      inBounds img p.1 p.2 := by
    intro p hp
    unfold inBounds
    fin_cases hp <;> refine ⟨by omega, by omega, by omega, by omega⟩
  constructor
  · unfold drawLineWrites
    rw [drawLinePoints_0_0_5_0]
    show List.filter _ [(0, 0), (1, 0), (2, 0), (3, 0), (4, 0), (5, 0)] = _
    rw [List.filter_eq_self.mpr]
    intro a ha
    exact decide_eq_true (hmem a ha)
  · intro x y
    unfold drawLine
    rw [drawLinePoints_0_0_5_0]
    show (List.foldl (fun (b : Paletted) (p : ℤ × ℤ) => setColorIndex b p.1 p.2 c)
      img _).pix x y = _
    rw [foldl_setColorIndex_pix c _ img x y]
    by_cases hm : (x, y) ∈ ([(0, 0), (1, 0), (2, 0), (3, 0), (4, 0), (5, 0)] : List (ℤ × ℤ))
    · rw [if_pos ⟨hm, hmem (x, y) hm⟩, if_pos hm]
    · rw [if_neg (fun hcon => hm hcon.1), if_neg hm]

/-- Witness for C5 on a concrete 6×1 buffer. -/
theorem drawLine_horizontal_exact_witness :
    drawLineWrites ⟨6, 1, fun _ _ => 0⟩ 0 0 5 0 =
      [(0, 0), (1, 0), (2, 0), (3, 0), (4, 0), (5, 0)] ∧
    ∀ x y : ℤ, (drawLine ⟨6, 1, fun _ _ => 0⟩ 0 0 5 0 9).pix x y =
      if (x, y) ∈ ([(0, 0), (1, 0), (2, 0), (3, 0), (4, 0), (5, 0)] : List (ℤ × ℤ))
      then 9 else (⟨6, 1, fun _ _ => 0⟩ : Paletted).pix x y :=
  drawLine_horizontal_exact ⟨6, 1, fun _ _ => 0⟩ 9 (by decide) (by decide)

/-- `image.NewPaletted`: a fresh buffer with all color indices zero. -/
def newPaletted (width height : ℤ) : Paletted :=
  ⟨width, height, fun _ _ => 0⟩

/-- The background fill loop of `CreateFrame`: write index 0 at every
`(x, y)` with `0 ≤ x < width`, `0 ≤ y < height`. -/
def fillBackground (img : Paletted) : Paletted :=
  (intRange 0 (img.height - 1)).foldl (fun acc y =>
    (intRange 0 (img.width - 1)).foldl (fun acc2 x =>
      setColorIndex acc2 x y 0) acc) img

/-- The trail-segment color computation of `CreateFrame`:
`intensity := float64(i) / float64(len(trail))` followed by
`colorIndex := uint8(intensity*254 + 1)` (the float-to-integer
conversion truncates; values here always lie within `uint8` range,
which the range theorem below establishes). -/
def segColorIndex (i len : ℕ) : ℤ :=
  ratTrunc (((i : ℚ) / (len : ℚ)) * 254 + 1)

/-- The 3×5 glyph table of `drawChar`, including its fallback dot for
unrecognized characters. -/
def charPattern (ch : Char) : List (List Bool) :=
  match ch with
  | 'L' =>
    [[true, false, false],
     [true, false, false],
     [true, false, false],
     [true, false, false],
     [true, true, true]]
  | 'o' =>
    [[false, true, false],
     [true, false, true],
     [true, false, true],
     [true, false, true],
     [false, true, false]]
  | 'r' =>
    [[false, false, false],
     [true, false, false],
     [true, true, false],
     [true, false, false],
     [true, false, false]]
  | 'e' =>
    [[false, true, false],
     [true, false, true],
     [true, true, true],
     [true, false, false],
     [false, true, true]]
  | 'n' =>
    [[false, false, false],
     [true, true, false],
     [true, false, true],
     [true, false, true],
     [true, false, true]]
  | 'z' =>
    [[false, false, false],
     [true, true, true],
     [false, false, true],
     [false, true, false],
     [true, true, true]]
  | ' ' =>
    [[false, false, false],
     [false, false, false],
     [false, false, false],
     [false, false, false],
     [false, false, false]]
  | _ =>
    [[false, false, false],
     [false, false, false],
     [false, true, false],
     [false, false, false],
     [false, false, false]]

/-- `drawChar`: paint the glyph's true cells at `(x+col, y+row)`,
clipped to the buffer bounds. -/
def drawChar (img : Paletted) (x y : ℤ) (ch : Char) (c : ℕ) : Paletted :=
  (charPattern ch).enum.foldl (fun acc row =>
    row.2.enum.foldl (fun acc2 col =>
      if col.2 then setColorIndex acc2 (x + (col.1 : ℤ)) (y + (row.1 : ℤ)) c
      else acc2) acc) img

/-- `drawText`: consecutive glyphs 6 pixels apart horizontally. -/
def drawText (img : Paletted) (x y : ℤ) (text : List Char) (c : ℕ) : Paletted :=
  text.enum.foldl (fun acc ich =>
    drawChar acc (x + (ich.1 : ℤ) * 6) y ich.2 c) img

/-- `CreateFrame` from `lorenz.go`: clear the buffer to background 0;
if the trail has fewer than 2 points return it as is; otherwise draw
each consecutive trail segment with its recency color, a radius-3
filled circle of index 255 at the newest point, and the two overlay
strings at (10,20) and (10,35) with indices 200 and 150. -/
def createFrame (lorenz : LorenzSystem) (width height : ℤ)
    (rotationX rotationY : ℚ) (frameNum : ℤ) : Paletted :=
  if (getTrail lorenz).length < 2 then
    fillBackground (newPaletted width height)
  else
    let trail := getTrail lorenz
    let img1 := (List.range' 1 (trail.length - 1)).foldl (fun acc i =>
      let p1 := project3DTo2D (trail.getD (i - 1) default) width height rotationX rotationY
      let p2 := project3DTo2D (trail.getD i default) width height rotationX rotationY
      drawLine acc p1.1 p1.2 p2.1 p2.2 (segColorIndex i trail.length).toNat)
      (fillBackground (newPaletted width height))
    let img2 :=
      if 0 < trail.length then
        let p := project3DTo2D (trail.getD (trail.length - 1) default)
          width height rotationX rotationY
        drawCircle img1 p.1 p.2 3 255
      else img1
    let img3 := drawText img2 10 20 (("Frame: ".toList) ++ (toString frameNum).toList) 200
    drawText img3 10 35 ("Lorenz Attractor Animation".toList) 150

/-- C7 (amended): for a trail of length `len ≥ 2`, the color index of
the `i`-th segment (`1 ≤ i ≤ len−1`) is at least 1 and at most 255 —
index 0 is never used.  (The original claim's strict lower bound
`> 1` fails: see the counterexample below.) -/
theorem segColorIndex_range (i len : ℕ) (h1 : 1 ≤ i) (h2 : i < len) :
    1 ≤ segColorIndex i len ∧ segColorIndex i len ≤ 255 ∧ segColorIndex i len ≠ 0 := by
  have hlen : (0 : ℚ) < (len : ℚ) := by
    have : 0 < len := by omega
    exact_mod_cast this
  have hi : (0 : ℚ) < (i : ℚ) := by exact_mod_cast h1
  have hfrac0 : (0 : ℚ) < (i : ℚ) / (len : ℚ) := div_pos hi hlen
  have hfrac1 : (i : ℚ) / (len : ℚ) < 1 := (div_lt_one hlen).mpr (by exact_mod_cast h2)
  have hq1 : (1 : ℚ) ≤ ((i : ℚ) / (len : ℚ)) * 254 + 1 := by nlinarith
  have hq255 : ((i : ℚ) / (len : ℚ)) * 254 + 1 < 255 := by nlinarith
  have h0q : (0 : ℚ) ≤ ((i : ℚ) / (len : ℚ)) * 254 + 1 := by linarith
  unfold segColorIndex ratTrunc
  rw [if_pos h0q]
  have hlow : (1 : ℤ) ≤ ⌊((i : ℚ) / (len : ℚ)) * 254 + 1⌋ :=
    Int.le_floor.mpr (by exact_mod_cast hq1)
  have hhigh : ⌊((i : ℚ) / (len : ℚ)) * 254 + 1⌋ < 255 :=
    Int.floor_lt.mpr (by exact_mod_cast hq255)
  exact ⟨hlow, by omega, by omega⟩

/-- Witness for C7's amended range theorem at `i = 1`, `len = 2`. -/
theorem segColorIndex_range_witness :
    1 ≤ segColorIndex 1 2 ∧ segColorIndex 1 2 ≤ 255 ∧ segColorIndex 1 2 ≠ 0 :=
  segColorIndex_range 1 2 (by decide) (by decide)

/-- Counterexample to C7 as stated: for a trail of length 255 the first
segment's color index is exactly 1, not strictly greater than 1
(`uint8((1/255)*254 + 1) = uint8(1.996…) = 1`). -/
theorem segColorIndex_not_gt_one :
    segColorIndex 1 255 = 1 ∧ ¬ (1 < segColorIndex 1 255) := by
  have h : segColorIndex 1 255 = 1 := by
    unfold segColorIndex ratTrunc
    have hq : (((1 : ℕ) : ℚ) / ((255 : ℕ) : ℚ)) * 254 + 1 = 509 / 255 := by
      norm_num
    rw [hq, if_pos (by norm_num : (0 : ℚ) ≤ 509 / 255)]
    exact Int.floor_eq_iff.mpr ⟨by norm_num, by norm_num⟩
  exact ⟨h, by rw [h]; decide⟩

lemma setColorIndex_pix_zero (img : Paletted) (a b : ℤ)
    (hz : ∀ u v, img.pix u v = 0) :
    ∀ u v, (setColorIndex img a b 0).pix u v = 0 := by
  intro u v
  unfold setColorIndex
  by_cases hb : inBounds img a b
  · rw [if_pos hb]
    show (if u = a ∧ v = b then 0 else img.pix u v) = 0
    by_cases he : u = a ∧ v = b
    · rw [if_pos he]
    · rw [if_neg he]
      exact hz u v
  · rw [if_neg hb]
    exact hz u v

lemma foldl_pix_zero {α : Type} (f : Paletted → α → Paletted)
    (hf : ∀ img a, (∀ u v, img.pix u v = 0) → ∀ u v, (f img a).pix u v = 0) :
    ∀ (l : List α) (img : Paletted), (∀ u v, img.pix u v = 0) →
      ∀ u v, (l.foldl f img).pix u v = 0 := by
  intro l
  induction l with
  | nil => exact fun img hz => hz
  | cons a t ih =>
    intro img hz
    rw [List.foldl_cons]
    exact ih (f img a) (hf img a hz)

lemma fillBackground_newPaletted_pix (width height : ℤ) :
    ∀ u v, (fillBackground (newPaletted width height)).pix u v = 0 := by
  unfold fillBackground
  apply foldl_pix_zero
  · intro img a hz
    exact foldl_pix_zero _ (fun img2 b hz2 => setColorIndex_pix_zero img2 b a hz2) _ img hz
  · exact fun u v => rfl

/-- C8: `CreateFrame` on a system whose trail has fewer than 2 points
(length 0 or 1) returns the all-background buffer: every pixel has
color index 0 — no segments, no marker, no overlay text. -/
theorem createFrame_blank (lorenz : LorenzSystem) (width height : ℤ)
    (rX rY : ℚ) (frameNum : ℤ) (h : (getTrail lorenz).length < 2) :
    ∀ x y : ℤ, (createFrame lorenz width height rX rY frameNum).pix x y = 0 := by
  intro x y
  unfold createFrame
  rw [if_pos h]
  exact fillBackground_newPaletted_pix width height x y

/-- Witness for C8: a fresh system (empty trail) on an 8×8 buffer,
queried at the concrete pixel (3, 3). -/
theorem createFrame_blank_witness :
    (createFrame (newLorenzSystem 5) 8 8 0 0 0).pix 3 3 = 0 :=
  createFrame_blank (newLorenzSystem 5) 8 8 0 0 0 (by decide) 3 3

end Lorenz
